import Mathlib

/-!
Shallow embedding of the cache-eviction-policies repository
(src/lru_cache.py and src/lfu_cache.py).

Both caches keep Python dicts whose values are `Node` objects linked into
doubly linked lists with Head/Tail sentinel nodes.  The embedding replaces
each pointer structure by the functional data it denotes:

* a Python dict is an association list (`List (κ × α)`), looked up, updated
  and deleted at the first matching key; fresh keys are appended at the end
  (Python dicts preserve insertion order);
* a doubly linked Head⇄…⇄Tail list is the list of the payloads of its real
  nodes, front (next to Head) first; `tail.prev` is its last element and is
  the Head sentinel when the list is empty;
* a `Node` stored in `hash_map` / `key_node_hash` is its `(value)` resp.
  `(value, freq)` fields, shared with the list through its key;
* unhandled Python exceptions (AttributeError on `None.prev`/`None.next`,
  KeyError on a missing dict key) are the `Except` error results.
-/

set_option maxRecDepth 10000

deriving instance DecidableEq for Except

/-- Unhandled Python exceptions that the source can raise while executing
an operation: `attributeError` models dereferencing an attribute of `None`
(the `prev` pointer of a Head sentinel), `keyError` models indexing a dict
with a missing key. -/
inductive PyError where
  | attributeError
  | keyError
  deriving DecidableEq

/-- Python `d.get(k)` / `d[k]` on an association-list dict: value at the
first entry whose key equals `k`. -/
def lookupKey {κ α : Type} [DecidableEq κ] : List (κ × α) → κ → Option α
  | [], _ => none
  | (k', v) :: t, k => if k' = k then some v else lookupKey t k

/-- In-place mutation of the value stored under key `k` (Python writes a
field of the `Node` object held by the dict): the first entry with key `k`
gets value `g v`, entry order is unchanged. -/
def modifyVal {κ α : Type} [DecidableEq κ] : List (κ × α) → κ → (α → α) → List (κ × α)
  | [], _, _ => []
  | (k', v) :: t, k, g => if k' = k then (k', g v) :: t else (k', v) :: modifyVal t k g

/-- Python `del d[k]`: remove the first entry with key `k` (a no-op is never
reached in the source on an absent key; the callers below check first). -/
def eraseKey {κ α : Type} [DecidableEq κ] : List (κ × α) → κ → List (κ × α)
  | [], _ => []
  | (k', v) :: t, k => if k' = k then t else (k', v) :: eraseKey t k

/-- A `get` or `put` call, the whole public surface of either cache. -/
inductive Op where
  | get (key : Int)
  | put (key value : Int)
  deriving DecidableEq

/-- Run a list of operations from a starting state, stopping at the first
unhandled exception (Python aborts the script there). -/
def runCache {σ : Type} (step : σ → Op → Except PyError σ) : σ → List Op → Except PyError σ
  | s, [] => .ok s
  | s, op :: t =>
      match step s op with
      | .ok s' => runCache step s' t
      | .error e => .error e

/-! ## LRU cache (src/lru_cache.py) -/

/-- State of `LRUCache` (src/lru_cache.py, lines 27-35).  `hash_map` maps a
key to the `value` field of its `Node`; `order` is the doubly linked list
between the Head and Tail sentinels as the list of the keys of its real
nodes, most recently used first (`head.next` first, `tail.prev` last). -/
structure LRUCache where
  capacity : Int
  hash_map : List (Int × Int)
  order : List Int
  deriving DecidableEq

/-- `LRUCache.__init__` (lines 29-35): any integer capacity is accepted, the
dict starts empty and the sentinel list `Head ⇄ Tail` holds no real node. -/
def mkLRUCache (capacity : Int) : LRUCache :=
  { capacity := capacity, hash_map := [], order := [] }

/-- `LRUCache.get` (lines 64-74): on a hit the node is unlinked from its
current position (`__remove_node_from_current_position`) and relinked next
to Head (`__add_next_to_head`), and its value is returned; on a miss the
sentinel value `-1` is returned and nothing changes. -/
def LRUCache.get (c : LRUCache) (key : Int) : LRUCache × Int :=
  match lookupKey c.hash_map key with
  | some v => ({ c with order := key :: c.order.erase key }, v)
  | none => (c, -1)

/-- `LRUCache.put` (lines 77-100).  Present key: overwrite `node.value` and
move the node next to Head.  Absent key at capacity (`len(hash_map) ==
capacity`): take `node_to_be_removed = tail.prev` (the Head sentinel itself
when the list is empty, whose `prev` is `None` — AttributeError), unlink it,
delete its key from the dict (KeyError if absent), then insert and index the
new node at the front.  Otherwise: insert and index the new node at the
front. -/
def LRUCache.put (c : LRUCache) (key value : Int) : Except PyError LRUCache :=
  match lookupKey c.hash_map key with
  | some _ =>
      .ok { c with hash_map := modifyVal c.hash_map key (fun _ => value),
                   order := key :: c.order.erase key }
  | none =>
      if (c.hash_map.length : Int) = c.capacity then
        match c.order.getLast? with
        | none => .error .attributeError
        | some kOut =>
            match lookupKey c.hash_map kOut with
            | none => .error .keyError
            | some _ =>
                .ok { capacity := c.capacity,
                      hash_map := eraseKey c.hash_map kOut ++ [(key, value)],
                      order := key :: c.order.dropLast }
      else
        .ok { c with hash_map := c.hash_map ++ [(key, value)],
                     order := key :: c.order }

/-- One public call on an `LRUCache` (the value returned by `get` is
recovered by `lruOuts` below). -/
def lruStep (c : LRUCache) : Op → Except PyError LRUCache
  | .get k => .ok (c.get k).1
  | .put k v => c.put k v

/-- Final state of a fresh `LRUCache(capacity)` after a call sequence. -/
def lruRun (capacity : Int) (ops : List Op) : Except PyError LRUCache :=
  runCache lruStep (mkLRUCache capacity) ops

/-- The list of values returned by the `get` calls of a sequence. -/
def lruOuts : LRUCache → List Op → Except PyError (List Int)
  | _, [] => .ok []
  | c, .get k :: t =>
      match lruOuts (c.get k).1 t with
      | .ok rs => .ok ((c.get k).2 :: rs)
      | .error e => .error e
  | c, .put k v :: t =>
      match c.put k v with
      | .ok c' => lruOuts c' t
      | .error e => .error e

/-- `get` outputs of a call sequence on a fresh `LRUCache(capacity)`. -/
def lruRunOuts (capacity : Int) (ops : List Op) : Except PyError (List Int) :=
  lruOuts (mkLRUCache capacity) ops

/-! ## LFU cache (src/lfu_cache.py) -/

/-- State of `LFUCache` (src/lfu_cache.py, lines 29-35).  `key_node_hash`
maps a key to the `(value, freq)` fields of its `Node`; `freq_dll_hash` maps
a frequency to its bucket — the Head⇄Tail list of that frequency as the list
of the keys of its real nodes, most recently touched first.  Buckets are
created on demand and never deleted, so empty buckets stay in the dict. -/
structure LFUCache where
  capacity : Int
  key_node_hash : List (Int × Int × Nat)
  freq_dll_hash : List (Nat × List Int)
  min_freq : Nat
  deriving DecidableEq

/-- `LFUCache.__init__` (lines 31-35): any integer capacity is accepted,
both dicts start empty and `min_freq` starts at 1. -/
def mkLFUCache (capacity : Int) : LFUCache :=
  { capacity := capacity, key_node_hash := [], freq_dll_hash := [], min_freq := 1 }

/-- Stable insertion of a `(freq, bucket)` pair into an already ascending
list, first half of the model of Python's `sorted` in `__reset_min_freq`. -/
def insertSorted (x : Nat × List Int) : List (Nat × List Int) → List (Nat × List Int)
  | [] => [x]
  | y :: t => if x.1 ≤ y.1 then x :: y :: t else y :: insertSorted x t

/-- Python's `sorted(freq_dll_hash.items())` (line 54): the items in
ascending frequency order (frequencies are distinct dict keys, so the
second tuple components are never compared). -/
def sortPairs : List (Nat × List Int) → List (Nat × List Int)
  | [] => []
  | x :: t => insertSorted x (sortPairs t)

/-- Number of buckets the loop of `__reset_min_freq` (lines 54-58) visits:
it checks the sorted buckets one by one and returns at the first non-empty
one (`head.next != tail`), or exhausts them all. -/
def scanCount : List (Nat × List Int) → Nat
  | [] => 0
  | b :: t => if b.2.isEmpty then scanCount t + 1 else 1

/-- `LFUCache.__reset_min_freq` (lines 50-58): scan the buckets in ascending
frequency order and set `min_freq` to the first frequency whose list is
non-empty; when every bucket is empty `min_freq` is left unchanged. -/
def LFUCache.resetMinFreq (c : LFUCache) : LFUCache :=
  match (sortPairs c.freq_dll_hash).find? (fun b => !b.2.isEmpty) with
  | some b => { c with min_freq := b.1 }
  | none => c

/-- Buckets the `__reset_min_freq` scan of a state visits. -/
def visitedBuckets (c : LFUCache) : Nat := scanCount (sortPairs c.freq_dll_hash)

/-- `LFUCache.__remove_the_given_node` (lines 71-76): pointer unlink of the
node of key `k` from the one bucket list holding it, modelled as erasing `k`
from every bucket (a real node is linked into exactly one bucket). -/
def removeTheGivenNode (bs : List (Nat × List Int)) (k : Int) : List (Nat × List Int) :=
  bs.map (fun b => (b.1, b.2.erase k))

/-- `LFUCache.__add_node_in_given_freq_dll` (lines 78-91): reuse the bucket
of frequency `f` when the dict has one (it may be empty — the `(head, tail)`
tuple is still there), otherwise create a fresh `Head ⇄ Tail` bucket and
record it; then insert the node next to the bucket's Head. -/
def addNodeInGivenFreqDll (bs : List (Nat × List Int)) (k : Int) (f : Nat) :
    List (Nat × List Int) :=
  match lookupKey bs f with
  | some _ => modifyVal bs f (fun l => k :: l)
  | none => bs ++ [(f, [k])]

/-- `LFUCache.__increment_the_freq_of_node` (lines 93-110) on the node of
key `k` whose fields after the caller's value write are `v` and `f`:
`node.freq += 1`, unlink the node from its current bucket, insert it at the
front of bucket `f + 1`, then rescan for the new `min_freq`. -/
def LFUCache.incrementTheFreqOfNode (c : LFUCache) (k v : Int) (f : Nat) : LFUCache :=
  LFUCache.resetMinFreq
    { c with
        key_node_hash := modifyVal c.key_node_hash k (fun _ => (v, f + 1)),
        freq_dll_hash := addNodeInGivenFreqDll (removeTheGivenNode c.freq_dll_hash k) k (f + 1) }

/-- `LFUCache.get` (lines 113-123): on a hit bump the node's frequency and
return its (unchanged) value; on a miss return the sentinel `-1` and change
nothing. -/
def LFUCache.get (c : LFUCache) (key : Int) : LFUCache × Int :=
  match lookupKey c.key_node_hash key with
  | some (v, f) => (c.incrementTheFreqOfNode key v f, v)
  | none => (c, -1)

/-- `LFUCache.put` (lines 126-159).  Present key: overwrite `node.value`
and bump its frequency.  Absent key at capacity: read the `min_freq` bucket
(KeyError when the dict has no such bucket), unlink `tail.prev` (the Head
sentinel when that bucket is empty — AttributeError on its `None` `prev`),
delete the evicted key from `key_node_hash`, then insert the new node at
frequency 1 and set `min_freq = 1`.  Otherwise: insert the new node at
frequency 1 and set `min_freq = 1`. -/
def LFUCache.put (c : LFUCache) (key value : Int) : Except PyError LFUCache :=
  match lookupKey c.key_node_hash key with
  | some (_, f) => .ok (c.incrementTheFreqOfNode key value f)
  | none =>
      if (c.key_node_hash.length : Int) = c.capacity then
        match lookupKey c.freq_dll_hash c.min_freq with
        | none => .error .keyError
        | some bucket =>
            match bucket.getLast? with
            | none => .error .attributeError
            | some kOut =>
                match lookupKey c.key_node_hash kOut with
                | none => .error .keyError
                | some _ =>
                    .ok { capacity := c.capacity,
                          key_node_hash := eraseKey c.key_node_hash kOut ++ [(key, value, 1)],
                          freq_dll_hash :=
                            addNodeInGivenFreqDll
                              (modifyVal c.freq_dll_hash c.min_freq (fun l => l.dropLast))
                              key 1,
                          min_freq := 1 }
      else
        .ok { capacity := c.capacity,
              key_node_hash := c.key_node_hash ++ [(key, value, 1)],
              freq_dll_hash := addNodeInGivenFreqDll c.freq_dll_hash key 1,
              min_freq := 1 }

/-- One public call on an `LFUCache`. -/
def lfuStep (c : LFUCache) : Op → Except PyError LFUCache
  | .get k => .ok (c.get k).1
  | .put k v => c.put k v

/-- Final state of a fresh `LFUCache(capacity)` after a call sequence. -/
def lfuRun (capacity : Int) (ops : List Op) : Except PyError LFUCache :=
  runCache lfuStep (mkLFUCache capacity) ops

/-- The list of values returned by the `get` calls of a sequence. -/
def lfuOuts : LFUCache → List Op → Except PyError (List Int)
  | _, [] => .ok []
  | c, .get k :: t =>
      match lfuOuts (c.get k).1 t with
      | .ok rs => .ok ((c.get k).2 :: rs)
      | .error e => .error e
  | c, .put k v :: t =>
      match c.put k v with
      | .ok c' => lfuOuts c' t
      | .error e => .error e

/-- `get` outputs of a call sequence on a fresh `LFUCache(capacity)`. -/
def lfuRunOuts (capacity : Int) (ops : List Op) : Except PyError (List Int) :=
  lfuOuts (mkLFUCache capacity) ops

/-- `min_freq` value `m` is the minimum frequency among the non-empty
buckets of `bs`: some non-empty bucket has frequency `m` and every
non-empty bucket has frequency at least `m`. -/
def isMinNonEmptyFreq (bs : List (Nat × List Int)) (m : Nat) : Prop :=
  (∃ b ∈ bs, b.1 = m ∧ b.2 ≠ []) ∧ ∀ b ∈ bs, b.2 ≠ [] → m ≤ b.1

/-! ## Association-list dict lemmas -/

theorem lookupKey_modifyVal {κ α : Type} [DecidableEq κ] (l : List (κ × α)) (k : κ)
    (g : α → α) : lookupKey (modifyVal l k g) k = (lookupKey l k).map g := by
  induction l with
  | nil => rfl
  | cons p t ih =>
    obtain ⟨k', v⟩ := p
    by_cases h : k' = k
    · simp [lookupKey, modifyVal, h]
    · simp [lookupKey, modifyVal, h, ih]

theorem length_modifyVal {κ α : Type} [DecidableEq κ] (l : List (κ × α)) (k : κ)
    (g : α → α) : (modifyVal l k g).length = l.length := by
  induction l with
  | nil => rfl
  | cons p t ih =>
    obtain ⟨k', v⟩ := p
    by_cases h : k' = k <;> simp [modifyVal, h, ih]

theorem map_fst_modifyVal {κ α : Type} [DecidableEq κ] (l : List (κ × α)) (k : κ)
    (g : α → α) : (modifyVal l k g).map Prod.fst = l.map Prod.fst := by
  induction l with
  | nil => rfl
  | cons p t ih =>
    obtain ⟨k', v⟩ := p
    by_cases h : k' = k <;> simp [modifyVal, h, ih]

theorem mem_modifyVal_of_lookup {κ α : Type} [DecidableEq κ] {l : List (κ × α)} {k : κ}
    {w : α} (g : α → α) (h : lookupKey l k = some w) : (k, g w) ∈ modifyVal l k g := by
  induction l with
  | nil => simp [lookupKey] at h
  | cons p t ih =>
    obtain ⟨k', v⟩ := p
    by_cases hk : k' = k
    · subst hk
      simp [lookupKey] at h
      subst h
      simp [modifyVal]
    · simp [lookupKey, hk] at h
      simp [modifyVal, hk, ih h]

theorem lookupKey_append_of_none {κ α : Type} [DecidableEq κ] {l₁ : List (κ × α)} {k : κ}
    (l₂ : List (κ × α)) (h : lookupKey l₁ k = none) :
    lookupKey (l₁ ++ l₂) k = lookupKey l₂ k := by
  induction l₁ with
  | nil => rfl
  | cons p t ih =>
    obtain ⟨k', v⟩ := p
    by_cases hk : k' = k
    · simp [lookupKey, hk] at h
    · simp only [lookupKey, if_neg hk] at h
      show lookupKey ((k', v) :: (t ++ l₂)) k = lookupKey l₂ k
      simp only [lookupKey, if_neg hk]
      exact ih h

theorem lookupKey_eraseKey_of_none {κ α : Type} [DecidableEq κ] {l : List (κ × α)} {k : κ}
    (k' : κ) (h : lookupKey l k = none) : lookupKey (eraseKey l k') k = none := by
  induction l with
  | nil => rfl
  | cons p t ih =>
    obtain ⟨k₀, v⟩ := p
    by_cases hk : k₀ = k
    · simp [lookupKey, hk] at h
    · simp only [lookupKey, if_neg hk] at h
      by_cases he : k₀ = k'
      · simpa [eraseKey, he] using h
      · simpa [eraseKey, he, lookupKey, if_neg hk] using ih h

theorem length_eraseKey_of_isSome {κ α : Type} [DecidableEq κ] {l : List (κ × α)} {k : κ}
    (h : (lookupKey l k).isSome) : (eraseKey l k).length + 1 = l.length := by
  induction l with
  | nil => simp [lookupKey] at h
  | cons p t ih =>
    obtain ⟨k', v⟩ := p
    by_cases hk : k' = k
    · simp [eraseKey, hk]
    · simp only [lookupKey, if_neg hk] at h
      simp [eraseKey, hk, ← ih h]

theorem lookupKey_eq_none_of_forall {κ α : Type} [DecidableEq κ] {l : List (κ × α)} {k : κ}
    (h : ∀ p ∈ l, p.1 ≠ k) : lookupKey l k = none := by
  induction l with
  | nil => rfl
  | cons p t ih =>
    obtain ⟨k', v⟩ := p
    have hk : k' ≠ k := h (k', v) (by simp)
    simp only [lookupKey, if_neg hk]
    exact ih fun q hq => h q (by simp [hq])

theorem lookupKey_singleton {κ α : Type} [DecidableEq κ] (k : κ) (v : α) :
    lookupKey [(k, v)] k = some v := by simp [lookupKey]

/-! ## Lemmas about the `__reset_min_freq` sort and scan -/

theorem insertSorted_perm (x : Nat × List Int) (l : List (Nat × List Int)) :
    List.Perm (insertSorted x l) (x :: l) := by
  induction l with
  | nil => exact List.Perm.refl _
  | cons y t ih =>
    by_cases h : x.1 ≤ y.1
    · simp [insertSorted, h]
    · simp only [insertSorted, if_neg h]
      exact (ih.cons y).trans (List.Perm.swap x y t)

theorem sortPairs_perm (l : List (Nat × List Int)) : List.Perm (sortPairs l) l := by
  induction l with
  | nil => exact List.Perm.refl _
  | cons x t ih => exact (insertSorted_perm x (sortPairs t)).trans (ih.cons x)

theorem pairwise_insertSorted {l : List (Nat × List Int)} (x : Nat × List Int)
    (h : l.Pairwise (fun a b => a.1 ≤ b.1)) :
    (insertSorted x l).Pairwise (fun a b => a.1 ≤ b.1) := by
  induction l with
  | nil => simp [insertSorted]
  | cons y t ih =>
    rw [List.pairwise_cons] at h
    by_cases hxy : x.1 ≤ y.1
    · simp only [insertSorted, if_pos hxy, List.pairwise_cons]
      refine ⟨?_, h.1, h.2⟩
      intro b hb
      rcases List.mem_cons.mp hb with hbx | hb'
      · rw [hbx]
        exact hxy
      · exact le_trans hxy (h.1 b hb')
    · simp only [insertSorted, if_neg hxy, List.pairwise_cons]
      refine ⟨?_, ih h.2⟩
      intro b hb
      rcases List.mem_cons.mp ((insertSorted_perm x t).mem_iff.mp hb) with hbx | hb'
      · rw [hbx]
        exact le_of_not_le hxy
      · exact h.1 b hb'

theorem pairwise_sortPairs (l : List (Nat × List Int)) :
    (sortPairs l).Pairwise (fun a b => a.1 ≤ b.1) := by
  induction l with
  | nil => simp [sortPairs]
  | cons x t ih => exact pairwise_insertSorted x ih

theorem sortPairs_of_pairwise {l : List (Nat × List Int)}
    (h : l.Pairwise (fun a b => a.1 ≤ b.1)) : sortPairs l = l := by
  induction l with
  | nil => rfl
  | cons x t ih =>
    rw [List.pairwise_cons] at h
    show insertSorted x (sortPairs t) = x :: t
    rw [ih h.2]
    cases t with
    | nil => rfl
    | cons y t' =>
      have hxy : x.1 ≤ y.1 := h.1 y (by simp)
      simp [insertSorted, hxy]

theorem find_skip_all_fail {p : Nat × List Int → Bool} {l₁ : List (Nat × List Int)}
    (l₂ : List (Nat × List Int)) (h : ∀ x ∈ l₁, p x = false) :
    List.find? p (l₁ ++ l₂) = List.find? p l₂ := by
  induction l₁ with
  | nil => rfl
  | cons x t ih =>
    have hx : ¬ p x = true := by simp [h x (by simp)]
    rw [List.cons_append, List.find?_cons_of_neg _ hx]
    exact ih fun y hy => h y (by simp [hy])

theorem find_exists_some {p : Nat × List Int → Bool} {l : List (Nat × List Int)}
    (h : ∃ x ∈ l, p x = true) : ∃ b, List.find? p l = some b := by
  induction l with
  | nil => simp at h
  | cons x t ih =>
    by_cases hx : p x = true
    · exact ⟨x, List.find?_cons_of_pos t hx⟩
    · rw [List.find?_cons_of_neg t hx]
      obtain ⟨y, hy, hpy⟩ := h
      rcases List.mem_cons.mp hy with rfl | hy'
      · exact absurd hpy hx
      · exact ih ⟨y, hy', hpy⟩

theorem find_min_of_pairwise {l : List (Nat × List Int)} {b : Nat × List Int}
    (hs : l.Pairwise (fun a b => a.1 ≤ b.1))
    (hf : List.find? (fun x => !x.2.isEmpty) l = some b) :
    ∀ x ∈ l, x.2 ≠ [] → b.1 ≤ x.1 := by
  induction l with
  | nil => simp at hf
  | cons y t ih =>
    rw [List.pairwise_cons] at hs
    by_cases hy : (!y.2.isEmpty) = true
    · rw [List.find?_cons_of_pos t hy] at hf
      obtain rfl : y = b := Option.some.inj hf
      intro x hx _
      rcases List.mem_cons.mp hx with rfl | hx'
      · exact le_refl _
      · exact hs.1 x hx'
    · rw [List.find?_cons_of_neg t hy] at hf
      intro x hx hne
      rcases List.mem_cons.mp hx with rfl | hx'
      · exact absurd (by simpa [List.isEmpty_iff] using hy) hne
      · exact ih hs.2 hf x hx' hne

theorem scanCount_append_all_empty {l₁ : List (Nat × List Int)}
    (l₂ : List (Nat × List Int)) (h : ∀ b ∈ l₁, b.2.isEmpty = true) :
    scanCount (l₁ ++ l₂) = l₁.length + scanCount l₂ := by
  induction l₁ with
  | nil => simp [scanCount]
  | cons b t ih =>
    have hb : b.2.isEmpty = true := h b (by simp)
    show scanCount (b :: (t ++ l₂)) = t.length + 1 + scanCount l₂
    simp only [scanCount, hb, if_true]
    rw [ih fun y hy => h y (by simp [hy])]
    omega

theorem resetMinFreq_buckets (c : LFUCache) :
    (c.resetMinFreq).freq_dll_hash = c.freq_dll_hash := by
  unfold LFUCache.resetMinFreq
  cases List.find? (fun b => !b.2.isEmpty) (sortPairs c.freq_dll_hash) <;> rfl

theorem resetMinFreq_nodes (c : LFUCache) :
    (c.resetMinFreq).key_node_hash = c.key_node_hash := by
  unfold LFUCache.resetMinFreq
  cases List.find? (fun b => !b.2.isEmpty) (sortPairs c.freq_dll_hash) <;> rfl

theorem resetMinFreq_capacity (c : LFUCache) :
    (c.resetMinFreq).capacity = c.capacity := by
  unfold LFUCache.resetMinFreq
  cases List.find? (fun b => !b.2.isEmpty) (sortPairs c.freq_dll_hash) <;> rfl

theorem resetMinFreq_isMin (c : LFUCache) (h : ∃ b ∈ c.freq_dll_hash, b.2 ≠ []) :
    isMinNonEmptyFreq c.freq_dll_hash (c.resetMinFreq).min_freq := by
  obtain ⟨b₀, hb₀, hne₀⟩ := h
  have hex : ∃ x ∈ sortPairs c.freq_dll_hash, (fun b => !b.2.isEmpty) x = true := by
    refine ⟨b₀, (sortPairs_perm c.freq_dll_hash).mem_iff.mpr hb₀, ?_⟩
    simpa [List.isEmpty_iff] using hne₀
  obtain ⟨b, hfind⟩ := find_exists_some hex
  have hmem : b ∈ c.freq_dll_hash :=
    (sortPairs_perm c.freq_dll_hash).mem_iff.mp (List.mem_of_find?_eq_some hfind)
  have hbne : b.2 ≠ [] := by simpa [List.isEmpty_iff] using List.find?_some hfind
  have hmin : ∀ x ∈ c.freq_dll_hash, x.2 ≠ [] → b.1 ≤ x.1 := by
    intro x hx hne
    exact find_min_of_pairwise (pairwise_sortPairs c.freq_dll_hash) hfind x
      ((sortPairs_perm c.freq_dll_hash).mem_iff.mpr hx) hne
  unfold LFUCache.resetMinFreq
  rw [hfind]
  exact ⟨⟨b, hmem, rfl, hbne⟩, hmin⟩

/-! ## Bucket bookkeeping lemmas -/

theorem freq_ge_one_removeTheGivenNode {bs : List (Nat × List Int)} (k : Int)
    (h : ∀ b ∈ bs, 1 ≤ b.1) : ∀ b ∈ removeTheGivenNode bs k, 1 ≤ b.1 := by
  intro b hb
  obtain ⟨b₀, hb₀, rfl⟩ := List.mem_map.mp hb
  exact h b₀ hb₀

theorem freq_ge_one_addNode {bs : List (Nat × List Int)} (k : Int) {f : Nat}
    (h : ∀ b ∈ bs, 1 ≤ b.1) (hf : 1 ≤ f) :
    ∀ b ∈ addNodeInGivenFreqDll bs k f, 1 ≤ b.1 := by
  intro b hb
  unfold addNodeInGivenFreqDll at hb
  cases hl : lookupKey bs f with
  | some w =>
      rw [hl] at hb
      have : b.1 ∈ (modifyVal bs f (fun l => k :: l)).map Prod.fst := List.mem_map_of_mem _ hb
      rw [map_fst_modifyVal] at this
      obtain ⟨b₀, hb₀, hfst⟩ := List.mem_map.mp this
      rw [← hfst]
      exact h b₀ hb₀
  | none =>
      rw [hl] at hb
      rcases List.mem_append.mp hb with hb' | hb'
      · exact h b hb'
      · rw [List.mem_singleton.mp hb']
        exact hf

theorem freq_ge_one_modifyVal {bs : List (Nat × List Int)} (f : Nat)
    (g : List Int → List Int) (h : ∀ b ∈ bs, 1 ≤ b.1) :
    ∀ b ∈ modifyVal bs f g, 1 ≤ b.1 := by
  intro b hb
  have : b.1 ∈ (modifyVal bs f g).map Prod.fst := List.mem_map_of_mem _ hb
  rw [map_fst_modifyVal] at this
  obtain ⟨b₀, hb₀, hfst⟩ := List.mem_map.mp this
  rw [← hfst]
  exact h b₀ hb₀

theorem addNode_mem_nonempty (bs : List (Nat × List Int)) (k : Int) (f : Nat) :
    ∃ b ∈ addNodeInGivenFreqDll bs k f, b.1 = f ∧ b.2 ≠ [] := by
  unfold addNodeInGivenFreqDll
  cases hl : lookupKey bs f with
  | some w => exact ⟨(f, k :: w), mem_modifyVal_of_lookup _ hl, rfl, by simp⟩
  | none => exact ⟨(f, [k]), by simp, rfl, by simp⟩

/-! ## Invariant preservation along a run -/

theorem runCache_inv {σ : Type} (step : σ → Op → Except PyError σ) (Inv : σ → Prop)
    (hstep : ∀ s op s', Inv s → step s op = .ok s' → Inv s') :
    ∀ (ops : List Op) (s c : σ), Inv s → runCache step s ops = .ok c → Inv c := by
  intro ops
  induction ops with
  | nil =>
      intro s c hs h
      rw [show runCache step s [] = .ok s from rfl] at h
      cases h
      exact hs
  | cons op t ih =>
      intro s c hs h
      rw [show runCache step s (op :: t)
            = match step s op with
              | .ok s' => runCache step s' t
              | .error e => .error e from rfl] at h
      cases hso : step s op with
      | ok s' =>
          rw [hso] at h
          exact ih s' c (hstep s op s' hs hso) h
      | error e =>
          rw [hso] at h
          cases h

/-- The C4 induction invariant: every bucket frequency is at least 1, and
whenever the cache holds a key, `min_freq` is the least non-empty bucket
frequency. -/
def LFUInv (c : LFUCache) : Prop :=
  (∀ b ∈ c.freq_dll_hash, 1 ≤ b.1) ∧
  (c.key_node_hash ≠ [] → isMinNonEmptyFreq c.freq_dll_hash c.min_freq)

theorem lfuInv_increment (c : LFUCache) (k v : Int) (f : Nat)
    (h1 : ∀ b ∈ c.freq_dll_hash, 1 ≤ b.1) :
    LFUInv (c.incrementTheFreqOfNode k v f) := by
  unfold LFUCache.incrementTheFreqOfNode
  set c1 : LFUCache :=
    { c with
        key_node_hash := modifyVal c.key_node_hash k (fun _ => (v, f + 1)),
        freq_dll_hash := addNodeInGivenFreqDll (removeTheGivenNode c.freq_dll_hash k) k (f + 1) }
    with hc1
  have hb1 : ∀ b ∈ c1.freq_dll_hash, 1 ≤ b.1 :=
    freq_ge_one_addNode k (freq_ge_one_removeTheGivenNode k h1) (by omega)
  have hex : ∃ b ∈ c1.freq_dll_hash, b.2 ≠ [] := by
    obtain ⟨b, hb, _, hne⟩ := addNode_mem_nonempty (removeTheGivenNode c.freq_dll_hash k) k (f + 1)
    exact ⟨b, hb, hne⟩
  constructor
  · rw [resetMinFreq_buckets]
    exact hb1
  · intro _
    rw [resetMinFreq_buckets]
    exact resetMinFreq_isMin c1 hex

theorem lfuInv_step (c : LFUCache) (op : Op) (c' : LFUCache)
    (h : LFUInv c) (hs : lfuStep c op = .ok c') : LFUInv c' := by
  cases op with
  | get k =>
      simp only [lfuStep] at hs
      cases hs
      unfold LFUCache.get
      cases hl : lookupKey c.key_node_hash k with
      | some vf =>
          obtain ⟨v, f⟩ := vf
          exact lfuInv_increment c k v f h.1
      | none => exact h
  | put k v =>
      simp only [lfuStep, LFUCache.put] at hs
      split at hs
      · cases hs
        rename_i v₀ f heq
        exact lfuInv_increment c k v f h.1
      · split at hs
        · split at hs
          · cases hs
          · split at hs
            · cases hs
            · split at hs
              · cases hs
              · cases hs
                have hb1 : ∀ b ∈ addNodeInGivenFreqDll
                    (modifyVal c.freq_dll_hash c.min_freq (fun l => l.dropLast)) k 1,
                    1 ≤ b.1 :=
                  freq_ge_one_addNode k
                    (freq_ge_one_modifyVal c.min_freq (fun l => l.dropLast) h.1)
                    (le_refl 1)
                refine ⟨hb1, fun _ => ?_⟩
                obtain ⟨b, hb, hbf, hbne⟩ := addNode_mem_nonempty
                  (modifyVal c.freq_dll_hash c.min_freq (fun l => l.dropLast)) k 1
                exact ⟨⟨b, hb, hbf, hbne⟩, fun b' hb' _ => hb1 b' hb'⟩
        · cases hs
          have hb1 : ∀ b ∈ addNodeInGivenFreqDll c.freq_dll_hash k 1, 1 ≤ b.1 :=
            freq_ge_one_addNode k h.1 (le_refl 1)
          refine ⟨hb1, fun _ => ?_⟩
          obtain ⟨b, hb, hbf, hbne⟩ := addNode_mem_nonempty c.freq_dll_hash k 1
          exact ⟨⟨b, hb, hbf, hbne⟩, fun b' hb' _ => hb1 b' hb'⟩

theorem increment_capacity (c : LFUCache) (k v : Int) (f : Nat) :
    (c.incrementTheFreqOfNode k v f).capacity = c.capacity := by
  unfold LFUCache.incrementTheFreqOfNode
  rw [resetMinFreq_capacity]

theorem increment_nodes_length (c : LFUCache) (k v : Int) (f : Nat) :
    (c.incrementTheFreqOfNode k v f).key_node_hash.length = c.key_node_hash.length := by
  unfold LFUCache.incrementTheFreqOfNode
  rw [resetMinFreq_nodes]
  exact length_modifyVal c.key_node_hash k _

/-- The C5 induction invariant for the LRU cache, for a fixed construction
capacity `cap`. -/
def LRUSize (cap : Int) (c : LRUCache) : Prop :=
  c.capacity = cap ∧ (c.hash_map.length : Int) ≤ cap

theorem lruSize_step (cap : Int) (c : LRUCache) (op : Op) (c' : LRUCache)
    (h : LRUSize cap c) (hs : lruStep c op = .ok c') : LRUSize cap c' := by
  cases op with
  | get k =>
      simp only [lruStep] at hs
      cases hs
      unfold LRUCache.get
      cases hl : lookupKey c.hash_map k with
      | some v => exact ⟨h.1, h.2⟩
      | none => exact h
  | put k v =>
      simp only [lruStep, LRUCache.put] at hs
      split at hs
      · cases hs
        refine ⟨h.1, ?_⟩
        rw [length_modifyVal]
        exact h.2
      · split at hs
        · rename_i hcap
          split at hs
          · cases hs
          · split at hs
            · cases hs
            · cases hs
              rename_i scr2 kOut hlast scr3 w hdel
              refine ⟨h.1, ?_⟩
              have hlen : (eraseKey c.hash_map kOut).length + 1 = c.hash_map.length :=
                length_eraseKey_of_isSome (by rw [hdel]; rfl)
              have : (eraseKey c.hash_map kOut ++ [(k, v)]).length = c.hash_map.length := by
                rw [List.length_append]
                simpa using hlen
              show ((eraseKey c.hash_map kOut ++ [(k, v)]).length : Int) ≤ cap
              rw [this]
              rw [h.1] at hcap
              exact le_of_eq hcap
        · rename_i hcap
          cases hs
          refine ⟨h.1, ?_⟩
          rw [List.length_append]
          have h2 := h.2
          rw [h.1] at hcap
          simp only [List.length_singleton]
          push_cast
          omega

/-- The C5 induction invariant for the LFU cache. -/
def LFUSize (cap : Int) (c : LFUCache) : Prop :=
  c.capacity = cap ∧ (c.key_node_hash.length : Int) ≤ cap

theorem lfuSize_step (cap : Int) (c : LFUCache) (op : Op) (c' : LFUCache)
    (h : LFUSize cap c) (hs : lfuStep c op = .ok c') : LFUSize cap c' := by
  cases op with
  | get k =>
      simp only [lfuStep] at hs
      cases hs
      unfold LFUCache.get
      cases hl : lookupKey c.key_node_hash k with
      | some vf =>
          obtain ⟨v, f⟩ := vf
          refine ⟨?_, ?_⟩
          · rw [increment_capacity]
            exact h.1
          · rw [increment_nodes_length]
            exact h.2
      | none => exact h
  | put k v =>
      simp only [lfuStep, LFUCache.put] at hs
      split at hs
      · cases hs
        refine ⟨?_, ?_⟩
        · rw [increment_capacity]
          exact h.1
        · rw [increment_nodes_length]
          exact h.2
      · split at hs
        · rename_i hcap
          split at hs
          · cases hs
          · split at hs
            · cases hs
            · split at hs
              · cases hs
              · cases hs
                rename_i scrB bucket hbkt scrC kOut hlast scrD w hdel
                refine ⟨h.1, ?_⟩
                have hlen : (eraseKey c.key_node_hash kOut).length + 1
                    = c.key_node_hash.length :=
                  length_eraseKey_of_isSome (by rw [hdel]; rfl)
                have : (eraseKey c.key_node_hash kOut ++ [(k, v, 1)]).length
                    = c.key_node_hash.length := by
                  rw [List.length_append]
                  simpa using hlen
                show ((eraseKey c.key_node_hash kOut ++ [(k, v, 1)]).length : Int) ≤ cap
                rw [this]
                rw [h.1] at hcap
                exact le_of_eq hcap
        · rename_i hcap
          cases hs
          refine ⟨h.1, ?_⟩
          rw [List.length_append]
          have h2 := h.2
          rw [h.1] at hcap
          simp only [List.length_singleton]
          push_cast
          omega

/-! ## Claim theorems -/

/-- Claim C4 (confirmed): for every LFUCache constructed with capacity ≥ 1
and every sequence of get/put operations after which the cache is
non-empty, `min_freq` equals the minimum frequency among all non-empty
frequency buckets. -/
theorem lfu_min_freq_is_minimum (cap : Int) (ops : List Op) (c : LFUCache)
    (hcap : 1 ≤ cap) (hrun : lfuRun cap ops = .ok c) (hne : c.key_node_hash ≠ []) :
    isMinNonEmptyFreq c.freq_dll_hash c.min_freq := by
  have hinit : LFUInv (mkLFUCache cap) := by
    constructor
    · intro b hb
      cases hb
    · intro hne'
      exact absurd rfl hne'
  have hinv : LFUInv c := runCache_inv lfuStep LFUInv lfuInv_step ops (mkLFUCache cap) c hinit hrun
  exact hinv.2 hne

/-- Witness for C4: after `put(1,1)` on a fresh capacity-2 LFUCache,
`min_freq = 1` is the minimum non-empty bucket frequency. -/
theorem lfu_min_freq_is_minimum_witness :
    (1 : Int) ≤ 2 ∧ isMinNonEmptyFreq [(1, [1])] 1 :=
  ⟨by decide,
   lfu_min_freq_is_minimum 2 [Op.put 1 1]
     { capacity := 2, key_node_hash := [(1, (1, 1))], freq_dll_hash := [(1, [1])], min_freq := 1 }
     (by decide) rfl (by decide)⟩

/-- Claim C5 (confirmed): for every validly constructed cache (capacity ≥ 1)
and every operation sequence, the number of keys in the hash index is at
most the capacity after every call. -/
theorem cache_size_bounded_by_capacity :
    (∀ (cap : Int) (ops : List Op) (c : LRUCache), 1 ≤ cap → lruRun cap ops = .ok c →
        (c.hash_map.length : Int) ≤ cap) ∧
    (∀ (cap : Int) (ops : List Op) (c : LFUCache), 1 ≤ cap → lfuRun cap ops = .ok c →
        (c.key_node_hash.length : Int) ≤ cap) := by
  constructor
  · intro cap ops c hcap hrun
    have hinit : LRUSize cap (mkLRUCache cap) := ⟨rfl, by simp [mkLRUCache]; omega⟩
    exact (runCache_inv lruStep (LRUSize cap) (lruSize_step cap) ops
      (mkLRUCache cap) c hinit hrun).2
  · intro cap ops c hcap hrun
    have hinit : LFUSize cap (mkLFUCache cap) := ⟨rfl, by simp [mkLFUCache]; omega⟩
    exact (runCache_inv lfuStep (LFUSize cap) (lfuSize_step cap) ops
      (mkLFUCache cap) c hinit hrun).2

/-- Witness for C5 at capacity 2 after one `put`. -/
theorem cache_size_bounded_by_capacity_witness :
    (([((1 : Int), (1 : Int))].length : Int) ≤ 2) ∧
    (([((1 : Int), (1 : Int), (1 : Nat))].length : Int) ≤ 2) :=
  ⟨cache_size_bounded_by_capacity.1 2 [Op.put 1 1]
     { capacity := 2, hash_map := [(1, 1)], order := [1] } (by decide) rfl,
   cache_size_bounded_by_capacity.2 2 [Op.put 1 1]
     { capacity := 2, key_node_hash := [(1, (1, 1))], freq_dll_hash := [(1, [1])], min_freq := 1 }
     (by decide) rfl⟩

/-- Claim C2 evaluation (code_bug): `__init__` of both caches performs no
capacity validation — construction with a non-positive capacity completes
normally, yielding an ordinary empty cache instead of raising an
`InvalidCapacity` error (the spec mandates the error; the source has no
error path in either constructor). -/
theorem construct_nonpositive_capacity_no_error (cap : Int) (h : cap ≤ 0) :
    mkLRUCache cap = { capacity := cap, hash_map := [], order := [] } ∧
    mkLFUCache cap
      = { capacity := cap, key_node_hash := [], freq_dll_hash := [], min_freq := 1 } ∧
    lruRun cap [] = .ok (mkLRUCache cap) ∧
    lfuRun cap [] = .ok (mkLFUCache cap) :=
  ⟨rfl, rfl, rfl, rfl⟩

/-- Witness for the C2 evaluation at capacity 0. -/
theorem construct_nonpositive_capacity_no_error_witness :
    mkLRUCache 0 = { capacity := 0, hash_map := [], order := [] } ∧
    mkLFUCache 0
      = { capacity := 0, key_node_hash := [], freq_dll_hash := [], min_freq := 1 } ∧
    lruRun 0 [] = .ok (mkLRUCache 0) ∧
    lfuRun 0 [] = .ok (mkLFUCache 0) :=
  construct_nonpositive_capacity_no_error 0 (by decide)

/-- Claim C3 evaluation (code_bug): both `get` methods signal absence with
the reserved sentinel `-1`, so a stored value `-1` is indistinguishable
from a miss: after `put(7, -1)`, `get(7)` (a hit on the stored value) and
`get(99)` (a miss) both return `-1`, while the hash index plainly stores
`7 ↦ -1` and has no entry for `99`. -/
theorem not_found_sentinel_collides :
    lruRunOuts 1 [.put 7 (-1), .get 7, .get 99] = .ok [-1, -1] ∧
    lfuRunOuts 1 [.put 7 (-1), .get 7, .get 99] = .ok [-1, -1] ∧
    (lruRun 1 [.put 7 (-1)]).map (fun c => (lookupKey c.hash_map 7, lookupKey c.hash_map 99))
      = .ok (some (-1), none) ∧
    (lfuRun 1 [.put 7 (-1)]).map
        (fun c => (lookupKey c.key_node_hash 7, lookupKey c.key_node_hash 99))
      = .ok (some (-1, 1), none) :=
  ⟨rfl, rfl, rfl, rfl⟩

/-- Claim C7 (confirmed): an LRUCache at capacity evicts exactly the back
(least recently used) node on a `put` of a new key — removing it from the
recency list and the hash index before inserting and indexing the new node
at the front — and the capacity-2 trace behaves as specified. -/
theorem lru_put_at_capacity_evicts_back (c : LRUCache) (k v kOut w : Int)
    (habs : lookupKey c.hash_map k = none)
    (hfull : (c.hash_map.length : Int) = c.capacity)
    (hback : c.order.getLast? = some kOut)
    (hidx : lookupKey c.hash_map kOut = some w) :
    c.put k v = .ok { capacity := c.capacity,
                      hash_map := eraseKey c.hash_map kOut ++ [(k, v)],
                      order := k :: c.order.dropLast } ∧
    lruRunOuts 2 [.put 1 1, .put 2 2, .get 1, .put 3 3, .get 2, .get 1, .get 3]
      = .ok [1, -1, 1, 3] := by
  refine ⟨?_, rfl⟩
  unfold LRUCache.put
  simp [habs, hback, hidx, hfull]

/-- Witness for C7: the capacity-2 cache holding keys 1, 2 (key 2 least
recently used) evicts key 2 when key 3 is put. -/
theorem lru_put_at_capacity_evicts_back_witness :
    LRUCache.put { capacity := 2, hash_map := [(1, 1), (2, 2)], order := [1, 2] } 3 3
      = .ok { capacity := 2,
              hash_map := eraseKey [((1 : Int), (1 : Int)), (2, 2)] 2 ++ [(3, 3)],
              order := 3 :: ([1, 2] : List Int).dropLast } :=
  (lru_put_at_capacity_evicts_back
    { capacity := 2, hash_map := [(1, 1), (2, 2)], order := [1, 2] }
    3 3 2 2 rfl (by decide) rfl rfl).1

/-- Claim C8 (confirmed): for both caches, a successful `put(k, v)`
immediately followed by `get(k)` returns `v` (the source's `put` never
evicts the key it is inserting, so no extra proviso is needed). -/
theorem put_then_get_returns_value :
    (∀ (c c' : LRUCache) (k v : Int), c.put k v = .ok c' → (c'.get k).2 = v) ∧
    (∀ (c c' : LFUCache) (k v : Int), c.put k v = .ok c' → (c'.get k).2 = v) := by
  constructor
  · intro c c' k v h
    unfold LRUCache.put at h
    split at h
    · cases h
      rename_i w hw
      have hlook : lookupKey (modifyVal c.hash_map k (fun _ => v)) k = some v := by
        rw [lookupKey_modifyVal, hw]
        rfl
      simp [LRUCache.get, hlook]
    · split at h
      · split at h
        · cases h
        · split at h
          · cases h
          · cases h
            rename_i habs hcap scr2 kOut hlast scr3 w hdel
            have h1 : lookupKey (eraseKey c.hash_map kOut) k = none :=
              lookupKey_eraseKey_of_none kOut habs
            have hlook : lookupKey (eraseKey c.hash_map kOut ++ [(k, v)]) k = some v := by
              rw [lookupKey_append_of_none _ h1]
              exact lookupKey_singleton k v
            simp [LRUCache.get, hlook]
      · cases h
        rename_i habs hcap
        have hlook : lookupKey (c.hash_map ++ [(k, v)]) k = some v := by
          rw [lookupKey_append_of_none _ habs]
          exact lookupKey_singleton k v
        simp [LRUCache.get, hlook]
  · intro c c' k v h
    unfold LFUCache.put at h
    split at h
    · cases h
      rename_i v₀ f hw
      have hlook : lookupKey (c.incrementTheFreqOfNode k v f).key_node_hash k
          = some (v, f + 1) := by
        unfold LFUCache.incrementTheFreqOfNode
        rw [resetMinFreq_nodes]
        show lookupKey (modifyVal c.key_node_hash k (fun _ => (v, f + 1))) k = some (v, f + 1)
        rw [lookupKey_modifyVal, hw]
        rfl
      simp [LFUCache.get, hlook]
    · split at h
      · split at h
        · cases h
        · split at h
          · cases h
          · split at h
            · cases h
            · cases h
              rename_i habs hcap scrB bucket hbkt scrC kOut hlast scrD w hdel
              have h1 : lookupKey (eraseKey c.key_node_hash kOut) k = none :=
                lookupKey_eraseKey_of_none kOut habs
              have hlook : lookupKey (eraseKey c.key_node_hash kOut ++ [(k, v, 1)]) k
                  = some (v, 1) := by
                rw [lookupKey_append_of_none _ h1]
                exact lookupKey_singleton k (v, 1)
              simp [LFUCache.get, hlook]
      · cases h
        rename_i habs hcap
        have hlook : lookupKey (c.key_node_hash ++ [(k, v, 1)]) k = some (v, 1) := by
          rw [lookupKey_append_of_none _ habs]
          exact lookupKey_singleton k (v, 1)
        simp [LFUCache.get, hlook]

/-- Witness for C8: `put(5, 9)` then `get(5)` returns 9 on both fresh
capacity-1 caches. -/
theorem put_then_get_returns_value_witness :
    (LRUCache.get { capacity := 1, hash_map := [(5, 9)], order := [5] } 5).2 = 9 ∧
    (LFUCache.get
      { capacity := 1, key_node_hash := [(5, (9, 1))], freq_dll_hash := [(1, [5])],
        min_freq := 1 } 5).2 = 9 :=
  ⟨put_then_get_returns_value.1 (mkLRUCache 1)
     { capacity := 1, hash_map := [(5, 9)], order := [5] } 5 9 rfl,
   put_then_get_returns_value.2 (mkLFUCache 1)
     { capacity := 1, key_node_hash := [(5, (9, 1))], freq_dll_hash := [(1, [5])],
       min_freq := 1 } 5 9 rfl⟩

/-- Claim C9 (confirmed): `get` on an absent key returns the miss result
and leaves the whole cache state unchanged — no reordering, no frequency
change, no `min_freq` change. -/
theorem get_absent_leaves_state_unchanged :
    (∀ (c : LRUCache) (k : Int), lookupKey c.hash_map k = none → c.get k = (c, -1)) ∧
    (∀ (c : LFUCache) (k : Int), lookupKey c.key_node_hash k = none → c.get k = (c, -1)) := by
  constructor
  · intro c k h
    simp [LRUCache.get, h]
  · intro c k h
    simp [LFUCache.get, h]

/-- Witness for C9 on concrete one-entry caches and an absent key. -/
theorem get_absent_leaves_state_unchanged_witness :
    LRUCache.get { capacity := 2, hash_map := [(1, 1)], order := [1] } 8
      = ({ capacity := 2, hash_map := [(1, 1)], order := [1] }, -1) ∧
    LFUCache.get
        { capacity := 2, key_node_hash := [(1, (1, 1))], freq_dll_hash := [(1, [1])],
          min_freq := 1 } 8
      = ({ capacity := 2, key_node_hash := [(1, (1, 1))], freq_dll_hash := [(1, [1])],
           min_freq := 1 }, -1) :=
  ⟨get_absent_leaves_state_unchanged.1
     { capacity := 2, hash_map := [(1, 1)], order := [1] } 8 rfl,
   get_absent_leaves_state_unchanged.2
     { capacity := 2, key_node_hash := [(1, (1, 1))], freq_dll_hash := [(1, [1])],
       min_freq := 1 } 8 rfl⟩

/-- Claim C10 (confirmed): a cache constructed with capacity 0 is built
without error, but the first `put` of any key takes the eviction branch
(`len == capacity` holds at 0 = 0) and raises — the LRU unlink dereferences
the Head sentinel's `None` `prev` pointer (AttributeError), the LFU bucket
lookup `freq_dll_hash[min_freq]` finds no bucket (KeyError) — instead of
storing the key or doing nothing. -/
theorem capacity_zero_first_put_raises (k v : Int) :
    (mkLRUCache 0).put k v = .error .attributeError ∧
    (mkLFUCache 0).put k v = .error .keyError :=
  ⟨rfl, rfl⟩

/-- Claim C1 counterexample (corrected): on the spec's canonical capacity-2
LFU trace the code's `get` outputs are `[1, -1, 3, 3, -1, 4]`, not the
claimed `[1, -1, 3, -1, 1, 4]` — and after `put(4,4)` key 3 is still
indexed (at frequency 2) while key 1 is gone, so `put(4,4)` evicted key 1,
not key 3 as the claim states. -/
theorem lfu_canonical_trace_counterexample :
    lfuRunOuts 2 [.put 1 1, .put 2 2, .get 1, .put 3 3, .get 2, .get 3, .put 4 4,
        .get 3, .get 1, .get 4]
      = .ok [1, -1, 3, 3, -1, 4] ∧
    ¬ lfuRunOuts 2 [.put 1 1, .put 2 2, .get 1, .put 3 3, .get 2, .get 3, .put 4 4,
        .get 3, .get 1, .get 4]
      = .ok [1, -1, 3, -1, 1, 4] ∧
    (lfuRun 2 [.put 1 1, .put 2 2, .get 1, .put 3 3, .get 2, .get 3, .put 4 4]).map
        (fun c => (lookupKey c.key_node_hash 3, lookupKey c.key_node_hash 1))
      = .ok (some (3, 2), none) := by
  refine ⟨rfl, ?_, rfl⟩
  intro h
  rw [show lfuRunOuts 2 [.put 1 1, .put 2 2, .get 1, .put 3 3, .get 2, .get 3, .put 4 4,
      .get 3, .get 1, .get 4] = .ok [1, -1, 3, 3, -1, 4] from rfl] at h
  simp at h

/-- Claim C1 amended (corrected): capacity-2 LFU canonical trace —
`get(1)→1`; `put(3,3)` evicts key 2; `get(2)→NotFound`; `get(3)→3`;
`put(4,4)` evicts key 1 (keys 1 and 3 are both at frequency 2 and key 1 is
the least recently touched); afterwards `get(3)→3`, `get(1)→NotFound`,
`get(4)→4`. -/
theorem lfu_canonical_trace_amended :
    lfuRunOuts 2 [.put 1 1, .put 2 2, .get 1, .put 3 3, .get 2, .get 3, .put 4 4,
        .get 3, .get 1, .get 4]
      = .ok [1, -1, 3, 3, -1, 4] ∧
    (lfuRun 2 [.put 1 1, .put 2 2, .get 1, .put 3 3]).map
        (fun c => ((lookupKey c.key_node_hash 2).isSome, (lookupKey c.key_node_hash 1).isSome,
          (lookupKey c.key_node_hash 3).isSome))
      = .ok (false, true, true) ∧
    (lfuRun 2 [.put 1 1, .put 2 2, .get 1, .put 3 3, .get 2, .get 3, .put 4 4]).map
        (fun c => ((lookupKey c.key_node_hash 1).isSome, (lookupKey c.key_node_hash 3).isSome,
          (lookupKey c.key_node_hash 4).isSome))
      = .ok (false, true, true) :=
  ⟨rfl, rfl, rfl⟩

/-! ## The `__reset_min_freq` scan is not O(1): a trace family whose scan
visits `n + 1` buckets -/

/-- Buckets with frequencies `1..m`, all empty (they stay in the dict after
their single node moved up). -/
def emptyBuckets (m : Nat) : List (Nat × List Int) :=
  (List.range m).map (fun i => (i + 1, []))

/-- State of a capacity-1 LFUCache after `put(1,1)` followed by `n` calls
of `get(1)`: the single node sits in bucket `n + 1` and the `n` buckets
below it are empty. -/
def scanTraceState (n : Nat) : LFUCache :=
  { capacity := 1, key_node_hash := [(1, (1, n + 1))],
    freq_dll_hash := emptyBuckets n ++ [(n + 1, [1])], min_freq := n + 1 }

theorem emptyBuckets_succ (m : Nat) :
    emptyBuckets (m + 1) = emptyBuckets m ++ [(m + 1, [])] := by
  simp [emptyBuckets, List.range_succ]

theorem mem_emptyBuckets {m : Nat} {b : Nat × List Int} (h : b ∈ emptyBuckets m) :
    b.1 ≤ m ∧ b.2 = [] := by
  simp only [emptyBuckets, List.mem_map, List.mem_range] at h
  obtain ⟨i, hi, rfl⟩ := h
  exact ⟨by omega, rfl⟩

theorem lookup_emptyBuckets_none {m f : Nat} (h : m < f) :
    lookupKey (emptyBuckets m) f = none := by
  refine lookupKey_eq_none_of_forall fun p hp => ?_
  have := (mem_emptyBuckets hp).1
  omega

theorem removeNode_scanBuckets (n : Nat) :
    removeTheGivenNode (emptyBuckets n ++ [(n + 1, [1])]) 1 = emptyBuckets (n + 1) := by
  unfold removeTheGivenNode
  rw [List.map_append, emptyBuckets_succ]
  congr 1
  simp only [emptyBuckets, List.map_map]
  rfl

theorem addNode_scanBuckets (n : Nat) :
    addNodeInGivenFreqDll (emptyBuckets (n + 1)) 1 (n + 2)
      = emptyBuckets (n + 1) ++ [(n + 2, [1])] := by
  unfold addNodeInGivenFreqDll
  rw [lookup_emptyBuckets_none (by omega)]

theorem pairwise_scanBuckets (m : Nat) :
    (emptyBuckets m ++ [(m + 1, ([1] : List Int))]).Pairwise (fun a b => a.1 ≤ b.1) := by
  rw [List.pairwise_append]
  refine ⟨?_, List.pairwise_singleton _ _, ?_⟩
  · rw [emptyBuckets, List.pairwise_map]
    exact (List.pairwise_lt_range m).imp
      (fun {a b} hab => Nat.succ_le_succ (Nat.le_of_lt hab))
  · intro a ha b hb
    rw [List.mem_singleton.mp hb]
    show a.1 ≤ m + 1
    have := (mem_emptyBuckets ha).1
    omega

theorem sortPairs_scanBuckets (m : Nat) :
    sortPairs (emptyBuckets m ++ [(m + 1, [1])]) = emptyBuckets m ++ [(m + 1, [1])] :=
  sortPairs_of_pairwise (pairwise_scanBuckets m)

theorem resetMinFreq_scanBuckets (c : LFUCache) (m : Nat)
    (hb : c.freq_dll_hash = emptyBuckets m ++ [(m + 1, [1])]) :
    c.resetMinFreq = { c with min_freq := m + 1 } := by
  unfold LFUCache.resetMinFreq
  rw [hb, sortPairs_scanBuckets]
  rw [find_skip_all_fail _ fun x hx => by simp [(mem_emptyBuckets hx).2]]
  rw [List.find?_cons_of_pos _ (by simp)]

theorem lfuGet_scanTraceState (n : Nat) :
    (scanTraceState n).get 1 = (scanTraceState (n + 1), 1) := by
  show ((scanTraceState n).incrementTheFreqOfNode 1 1 (n + 1), 1) = (scanTraceState (n + 1), 1)
  unfold LFUCache.incrementTheFreqOfNode
  rw [show removeTheGivenNode (scanTraceState n).freq_dll_hash 1 = emptyBuckets (n + 1) from
    removeNode_scanBuckets n]
  rw [show (n : Nat) + 1 + 1 = n + 2 from rfl]
  rw [addNode_scanBuckets n]
  rw [resetMinFreq_scanBuckets _ (n + 1) rfl]
  rfl

/-- One loop iteration count for the scan on the `scanTraceState` buckets. -/
theorem visitedBuckets_scanTraceState (n : Nat) :
    visitedBuckets (scanTraceState n) = n + 1 := by
  unfold visitedBuckets
  show scanCount (sortPairs (emptyBuckets n ++ [(n + 1, [1])])) = n + 1
  rw [sortPairs_scanBuckets]
  rw [scanCount_append_all_empty _ fun b hb => by simp [(mem_emptyBuckets hb).2]]
  simp [emptyBuckets, scanCount]

theorem runCache_append {σ : Type} (step : σ → Op → Except PyError σ) (s : σ)
    (l₁ l₂ : List Op) :
    runCache step s (l₁ ++ l₂)
      = match runCache step s l₁ with
        | .ok s' => runCache step s' l₂
        | .error e => .error e := by
  induction l₁ generalizing s with
  | nil => rfl
  | cons op t ih =>
      show (match step s op with
            | .ok s' => runCache step s' (t ++ l₂)
            | .error e => .error e) = _
      cases hso : step s op with
      | ok s' =>
          rw [show runCache step s (op :: t)
              = match step s op with
                | .ok s' => runCache step s' t
                | .error e => .error e from rfl, hso]
          exact ih s'
      | error e =>
          rw [show runCache step s (op :: t)
              = match step s op with
                | .ok s' => runCache step s' t
                | .error e => .error e from rfl, hso]

/-- Claim C6 evaluation (code_bug): the frequency bump shared by `get` and
the update branch of `put` maintains `min_freq` by calling
`__reset_min_freq`, which sorts and scans the whole bucket dict instead of
applying the O(1) incremental rule: on a capacity-1 cache, `put(1,1)`
followed by `n` calls of `get(1)` leaves `n + 1` buckets behind, and the
scan run by the last bump visits all `n + 1` of them — the work grows
without bound with the number of distinct frequencies, so it is not O(1). -/
theorem min_freq_reset_rescans_all_buckets (n : Nat) :
    lfuRun 1 (Op.put 1 1 :: List.replicate n (Op.get 1)) = .ok (scanTraceState n) ∧
    visitedBuckets (scanTraceState n) = n + 1 := by
  refine ⟨?_, visitedBuckets_scanTraceState n⟩
  induction n with
  | zero => rfl
  | succ m ih =>
      have hops : (Op.put 1 1 :: List.replicate (m + 1) (Op.get 1))
          = (Op.put 1 1 :: List.replicate m (Op.get 1)) ++ [Op.get 1] := by
        rw [List.replicate_succ' m (Op.get 1), List.cons_append]
      rw [hops]
      unfold lfuRun at ih ⊢
      rw [runCache_append, ih]
      show runCache lfuStep (scanTraceState m) [Op.get 1] = .ok (scanTraceState (m + 1))
      show (match lfuStep (scanTraceState m) (Op.get 1) with
            | .ok s' => runCache lfuStep s' []
            | .error e => .error e) = .ok (scanTraceState (m + 1))
      rw [show lfuStep (scanTraceState m) (Op.get 1) = .ok ((scanTraceState m).get 1).1 from rfl]
      rw [lfuGet_scanTraceState m]
      rfl

/-- Boundary check from the spec (section 8): at capacity 1, `put(1,1);
put(2,2)` evicts key 1, so `get(1)` misses and `get(2)` returns 2 — on both
caches. -/
theorem capacity_one_boundary :
    lruRunOuts 1 [.put 1 1, .put 2 2, .get 1, .get 2] = .ok [-1, 2] ∧
    lfuRunOuts 1 [.put 1 1, .put 2 2, .get 1, .get 2] = .ok [-1, 2] :=
  ⟨rfl, rfl⟩
